import Mathlib

/-
Verification of the node-local Raft state tracker (raft_state/mod.rs).

The aggregate `RaftState` and its mutators are translated from the source
file.  The four leaf collaborator types (log id, vote, log-id index,
membership state, snapshot metadata) are not part of the provided source;
they are modelled from the specification's description of their interface.
-/

set_option autoImplicit false

namespace Openraft

/-- Modelled from the spec: a log id is a pair (term, index), where term is
the leader epoch under which the entry was written and index its position. -/
structure LogId where
  term : Nat
  index : Nat
deriving DecidableEq

/-- Modelled from the spec: log ids are ordered lexicographically by
(term, index); this is a total order. -/
def LogId.le (a b : LogId) : Prop :=
  a.term < b.term ∨ (a.term = b.term ∧ a.index ≤ b.index)

/-- Modelled from the spec: the strict lexicographic order on log ids. -/
def LogId.lt (a b : LogId) : Prop :=
  a.term < b.term ∨ (a.term = b.term ∧ a.index < b.index)

instance (a b : LogId) : Decidable (LogId.le a b) := by
  unfold LogId.le; exact inferInstance

instance (a b : LogId) : Decidable (LogId.lt a b) := by
  unfold LogId.lt; exact inferInstance

/-- Modelled from the spec: order on optional log ids with absent below
every present log id (mirrors the derived `Option` ordering used by the
source's comparison macros). -/
def oleLog : Option LogId → Option LogId → Prop
  | none, _ => True
  | some _, none => False
  | some a, some b => LogId.le a b

/-- Modelled from the spec: strict order on optional log ids, absent below
every present log id. -/
def oltLog : Option LogId → Option LogId → Prop
  | none, none => False
  | none, some _ => True
  | some _, none => False
  | some a, some b => LogId.lt a b

/-- Modelled from the spec: order on optional naturals, absent below every
present value (used for the first-index check of `validate`). -/
def oleNat : Option Nat → Option Nat → Prop
  | none, _ => True
  | some _, none => False
  | some a, some b => a ≤ b

instance : (a b : Option LogId) → Decidable (oleLog a b)
  | none, _ => isTrue trivial
  | some _, none => isFalse id
  | some a, some b => inferInstanceAs (Decidable (LogId.le a b))

instance : (a b : Option LogId) → Decidable (oltLog a b)
  | none, none => isFalse id
  | none, some _ => isTrue trivial
  | some _, none => isFalse id
  | some a, some b => inferInstanceAs (Decidable (LogId.lt a b))

instance : (a b : Option Nat) → Decidable (oleNat a b)
  | none, _ => isTrue trivial
  | some _, none => isFalse id
  | some a, some b => inferInstanceAs (Decidable (a ≤ b))

/-- Modelled from the spec: `next_index` of an optional log id — 0 when
absent, index + 1 when present (the source's `LogIdOptionExt::next_index`). -/
def nextIndex : Option LogId → Nat
  | none => 0
  | some l => l.index + 1

/-- Modelled from the spec: project the index out of an optional log id
(the source's `LogIdOptionExt::index`). -/
def optIndex : Option LogId → Option Nat
  | none => none
  | some l => some l.index

/-- Modelled from the spec: a vote is (term, leader candidate id, committed
flag); `voted_for` is the claimed leader, absent when no candidate was
voted for. -/
structure Vote where
  term : Nat
  voted_for : Option Nat
  committed : Bool
deriving DecidableEq

/-- Modelled from the spec: "committed" means a quorum has granted
leadership for this term. -/
def Vote.is_committed (v : Vote) : Bool := v.committed

/-- Modelled from the spec: the committed leader id of the vote — present
exactly when the vote is committed, in which case it is the vote's term
(the epoch new log ids are stamped with). -/
def Vote.committed_leader_id (v : Vote) : Option Nat :=
  if v.committed then some v.term else none

/-- Modelled from the spec: a value tagged with the time it was last
changed (the source's `UTime`); time instants are modelled as naturals. -/
structure UTime (α : Type) where
  data : α
  utime : Option Nat
deriving DecidableEq

/-- Modelled from the spec: one membership configuration — the log id of
the entry that introduced it, its voter set, and per-node metadata
(node ids and metadata are modelled as naturals). -/
structure StoredMembership where
  log_id : Option LogId
  voters : List Nat
  nodes : List (Nat × Nat)
deriving DecidableEq

/-- Modelled from the spec: look up a node's metadata in a configuration. -/
def StoredMembership.get_node (m : StoredMembership) (id : Nat) : Option Nat :=
  (m.nodes.find? (fun p => p.1 == id)).map Prod.snd

/-- Modelled from the spec: the membership state holds the committed and
the effective configuration. -/
structure MembershipState where
  committed : StoredMembership
  effective : StoredMembership
deriving DecidableEq

/-- Modelled from the spec: a node id is a voter iff it is in the effective
configuration's voter set. -/
def MembershipState.is_voter (m : MembershipState) (id : Nat) : Bool :=
  m.effective.voters.contains id

/-- Modelled from the spec: committing a log id retires the previous
configuration once the effective configuration's entry is covered by the
commit point. -/
def MembershipState.commit (m : MembershipState) (c : Option LogId) : MembershipState :=
  if oleLog m.effective.log_id c then { m with committed := m.effective } else m

/-- Modelled from the spec: the membership state's own internal invariant —
the committed configuration is never newer than the effective one. -/
def MembershipState.validate (m : MembershipState) : Prop :=
  oleLog m.committed.log_id m.effective.log_id

instance (m : MembershipState) : Decidable (MembershipState.validate m) := by
  unfold MembershipState.validate; exact inferInstance

/-- Modelled from the spec: the log-id index — the ordered record of log
ids this node has retained, kept here as the full per-index list. -/
structure LogIdList where
  ids : List LogId
deriving DecidableEq

/-- The last element of a list of log ids, falling back to `p` when the
list is empty. -/
def lastOf (p : Option LogId) : List LogId → Option LogId
  | [] => p
  | x :: xs => lastOf (some x) xs

/-- Modelled from the spec: first retained log id. -/
def LogIdList.first (l : LogIdList) : Option LogId := l.ids.head?

/-- Modelled from the spec: last retained log id. -/
def LogIdList.last (l : LogIdList) : Option LogId := lastOf none l.ids

/-- Modelled from the spec: point lookup — the log id in effect at a
queried index, or absent if unknown. -/
def LogIdList.get (l : LogIdList) (idx : Nat) : Option LogId :=
  l.ids.find? (fun x => x.index == idx)

/-- Modelled from the spec: append a contiguous run of log ids. -/
def LogIdList.extend (l : LogIdList) (new : List LogId) : LogIdList :=
  ⟨l.ids ++ new⟩

/-- Modelled from the spec: append a contiguous run of log ids all from one
leader epoch; same end effect as `extend`. -/
def LogIdList.extend_from_same_leader (l : LogIdList) (new : List LogId) : LogIdList :=
  l.extend new

/-- Modelled from the spec: destructively purge the prefix up to and
including `upto`, keeping `upto` itself as the recorded purge point (so
that the first retained log id afterwards is `upto`). -/
def LogIdList.purge (l : LogIdList) (upto : LogId) : LogIdList :=
  ⟨upto :: l.ids.filter (fun x => decide (upto.index < x.index))⟩

/-- Modelled from the spec: snapshot metadata — the last log id included in
the most recent snapshot. -/
structure SnapshotMeta where
  last_log_id : Option LogId
deriving DecidableEq

/-- The derived server role enumeration (from the source's `ServerState`). -/
inductive ServerState where
  | Learner
  | Follower
  | Candidate
  | Leader
deriving DecidableEq

/-- Modelled from the spec: a log entry carrying its log id and an opaque
payload. -/
structure Entry where
  log_id : LogId
  payload : Nat
deriving DecidableEq

/-- Modelled from the spec: read an entry's log id. -/
def Entry.get_log_id (e : Entry) : LogId := e.log_id

/-- Modelled from the spec: overwrite an entry's log id. -/
def Entry.set_log_id (e : Entry) (l : LogId) : Entry := { e with log_id := l }

/-- Modelled from the spec: the forward-to-leader result — the known
leader's id and its node metadata, both absent for the empty result. -/
structure ForwardToLeader where
  leader_id : Option Nat
  leader_node : Option Nat
deriving DecidableEq

/-- Modelled from the spec: populated forwarding result. -/
def ForwardToLeader.new (id : Nat) (node : Nat) : ForwardToLeader :=
  ⟨some id, some node⟩

/-- Modelled from the spec: the empty forwarding result ("no known leader"). -/
def ForwardToLeader.empty : ForwardToLeader := ⟨none, none⟩

/-- The raft state aggregate, translated field by field from the source's
`RaftState` struct. -/
structure RaftState where
  vote : UTime Vote
  committed : Option LogId
  purged_next : Nat
  log_ids : LogIdList
  membership_state : MembershipState
  snapshot_meta : SnapshotMeta
  server_state : ServerState
  purge_upto : Option LogId
deriving DecidableEq

/-- `LogStateReader::get_log_id` from the source. -/
def RaftState.get_log_id (st : RaftState) (idx : Nat) : Option LogId :=
  st.log_ids.get idx

/-- `LogStateReader::last_log_id` from the source. -/
def RaftState.last_log_id (st : RaftState) : Option LogId :=
  st.log_ids.last

/-- `LogStateReader::snapshot_last_log_id` from the source. -/
def RaftState.snapshot_last_log_id (st : RaftState) : Option LogId :=
  st.snapshot_meta.last_log_id

/-- `LogStateReader::last_purged_log_id` from the source: absent while the
purge boundary is 0, otherwise the first retained log id. -/
def RaftState.last_purged_log_id (st : RaftState) : Option LogId :=
  if st.purged_next = 0 then none else st.log_ids.first

/-- `RaftState::vote_ref` from the source. -/
def RaftState.vote_ref (st : RaftState) : Vote := st.vote.data

/-- `RaftState::vote_last_modified` from the source. -/
def RaftState.vote_last_modified (st : RaftState) : Option Nat := st.vote.utime

/-- Modelled from the spec: a log "has" a log id if its entry at that index
carries exactly that log id (the log-state reader's `has_log_id`, whose
source file is not part of the provided source). -/
def RaftState.has_log_id (st : RaftState) (lid : LogId) : Bool :=
  decide (st.get_log_id lid.index = some lid)

/-- `RaftState::extend_log_ids_from_same_leader` from the source. -/
def RaftState.extend_log_ids_from_same_leader (st : RaftState) (new : List LogId) : RaftState :=
  { st with log_ids := st.log_ids.extend_from_same_leader new }

/-- `RaftState::extend_log_ids` from the source. -/
def RaftState.extend_log_ids (st : RaftState) (new : List LogId) : RaftState :=
  { st with log_ids := st.log_ids.extend new }

/-- `RaftState::update_committed` from the source: update `committed` if
the input is greater, notify the membership state, and return the previous
value in `some`; otherwise return `none` and leave the state unchanged. -/
def RaftState.update_committed (st : RaftState) (c : Option LogId) :
    Option (Option LogId) × RaftState :=
  if oltLog st.committed c then
    (some st.committed,
      { st with
        committed := c
        membership_state := st.membership_state.commit c })
  else
    (none, st)

/-- `RaftState::first_conflicting_index` from the source: the position of
the first entry whose log id is not on the local log, or the input length
when every entry's log id is present. -/
def RaftState.first_conflicting_index (st : RaftState) : List Entry → Nat
  | [] => 0
  | e :: rest =>
    if st.has_log_id e.get_log_id then st.first_conflicting_index rest + 1 else 0

/-- `RaftState::purge_log` from the source: advance the purge boundary to
`upto.index + 1` and purge the log-id index up to `upto`. -/
def RaftState.purge_log (st : RaftState) (upto : LogId) : RaftState :=
  { st with
    purged_next := upto.index + 1
    log_ids := st.log_ids.purge upto }

/-- `RaftState::is_voter` from the source. -/
def RaftState.is_voter (st : RaftState) (id : Nat) : Bool :=
  st.membership_state.is_voter id

/-- `RaftState::is_leading` from the source: the vote's claimed leader is
`id` (leadership granted or still pending). -/
def RaftState.is_leading (st : RaftState) (id : Nat) : Bool :=
  st.vote_ref.voted_for == some id

/-- `RaftState::is_leader` from the source: the vote's claimed leader is
`id` and the vote is committed. -/
def RaftState.is_leader (st : RaftState) (id : Nat) : Bool :=
  (st.vote_ref.voted_for == some id) && st.vote_ref.is_committed

/-- `RaftState::calc_server_state` from the source. -/
def RaftState.calc_server_state (st : RaftState) (id : Nat) : ServerState :=
  if st.is_voter id then
    if st.is_leader id then ServerState.Leader
    else if st.is_leading id then ServerState.Candidate
    else ServerState.Follower
  else ServerState.Learner

/-- Helper for `assign_log_ids`: stamp successive entries with log ids
starting from `lid`, incrementing the index by one per entry (the loop body
of the source's `assign_log_ids`). -/
def assignFrom (lid : LogId) : List Entry → List Entry
  | [] => []
  | e :: rest => e.set_log_id lid :: assignFrom ⟨lid.term, lid.index + 1⟩ rest

/-- `RaftState::assign_log_ids` from the source: stamp the batch with
sequential log ids starting at (the vote's committed leader id, the index
after the last log id); `none` models the `unwrap` panic when the vote has
no committed leader id. -/
def RaftState.assign_log_ids (st : RaftState) (entries : List Entry) :
    Option (List Entry) :=
  match st.vote_ref.committed_leader_id with
  | none => none
  | some e => some (assignFrom ⟨e, nextIndex st.last_log_id⟩ entries)

/-- `RaftState::forward_to_leader` from the source; `none` models the
`unwrap` panic on a committed vote that voted for nobody. -/
def RaftState.forward_to_leader (st : RaftState) : Option ForwardToLeader :=
  if st.vote_ref.is_committed then
    match st.vote_ref.voted_for with
    | none => none
    | some id =>
      match st.membership_state.effective.get_node id with
      | some n => some (ForwardToLeader.new id n)
      | none => some ForwardToLeader.empty
  else some ForwardToLeader.empty

/-- `Validate::validate` for `RaftState`, translated check by check from
the source (each conjunct is one `less_equal!`/`equal!` assertion). -/
def RaftState.validate (st : RaftState) : Prop :=
  (st.purged_next = 0 → oleNat (optIndex st.log_ids.first) (some 0)) ∧
  (st.purged_next ≠ 0 → st.purged_next = nextIndex st.log_ids.first) ∧
  oleLog st.last_purged_log_id st.purge_upto ∧
  (st.snapshot_last_log_id = none → oleLog st.purge_upto st.committed) ∧
  (st.snapshot_last_log_id ≠ none → oleLog st.purge_upto st.snapshot_last_log_id) ∧
  oleLog st.snapshot_last_log_id st.committed ∧
  oleLog st.committed st.last_log_id ∧
  st.membership_state.validate

instance (st : RaftState) : Decidable (RaftState.validate st) := by
  unfold RaftState.validate; exact inferInstance

/-! ### The step relation for reachability (spec §8 invariant closure)

Each mutator of the aggregate becomes one step; `stepOk` records the
precondition its caller is documented to establish. -/

/-- One mutating call to the raft state. -/
inductive Step where
  | extend (new : List LogId)
  | extendSameLeader (new : List LogId)
  | updCommit (c : Option LogId)
  | purge (upto : LogId)
  | mcommit (c : Option LogId)

/-- Apply one mutating call (return values are dropped). -/
def applyStep (st : RaftState) : Step → RaftState
  | .extend new => st.extend_log_ids new
  | .extendSameLeader new => st.extend_log_ids_from_same_leader new
  | .updCommit c => (st.update_committed c).2
  | .purge upto => st.purge_log upto
  | .mcommit c => { st with membership_state := st.membership_state.commit c }

/-- Modelled from the spec: a run of log ids is index-contiguous after
`prev` and lexicographically nondecreasing (the source requires appended
log ids to be continuous with the tail). -/
def chainFrom : Option LogId → List LogId → Prop
  | _, [] => True
  | prev, x :: xs => x.index = nextIndex prev ∧ oleLog prev (some x) ∧ chainFrom (some x) xs

def decChainFrom : (p : Option LogId) → (l : List LogId) → Decidable (chainFrom p l)
  | _, [] => isTrue trivial
  | p, x :: xs =>
    letI : Decidable (chainFrom (some x) xs) := decChainFrom (some x) xs
    inferInstanceAs (Decidable (x.index = nextIndex p ∧ oleLog p (some x) ∧ chainFrom (some x) xs))

instance (p : Option LogId) (l : List LogId) : Decidable (chainFrom p l) :=
  decChainFrom p l

/-- Well-formedness of the retained log-id list: consecutive indices and
nondecreasing log ids after the first element. -/
def chainIds : List LogId → Prop
  | [] => True
  | x :: xs => chainFrom (some x) xs

instance : (l : List LogId) → Decidable (chainIds l)
  | [] => isTrue trivial
  | x :: xs => inferInstanceAs (Decidable (chainFrom (some x) xs))

/-- Well-formedness of a raft state's log-id index. -/
def WfLog (st : RaftState) : Prop := chainIds st.log_ids.ids

instance (st : RaftState) : Decidable (WfLog st) := by
  unfold WfLog; exact inferInstance

/-- The documented caller-side precondition of each mutating call:
appends are contiguous with the tail, a commit candidate does not pass the
last log id, and a purge target is a retained log id not beyond the pending
purge watermark. -/
def stepOk (st : RaftState) : Step → Prop
  | .extend new => chainFrom st.last_log_id new
  | .extendSameLeader new => chainFrom st.last_log_id new
  | .updCommit c => oleLog c st.last_log_id
  | .purge upto => oleLog (some upto) st.purge_upto ∧ upto ∈ st.log_ids.ids
  | .mcommit _ => True

instance (st : RaftState) : (a : Step) → Decidable (stepOk st a)
  | .extend new => inferInstanceAs (Decidable (chainFrom st.last_log_id new))
  | .extendSameLeader new => inferInstanceAs (Decidable (chainFrom st.last_log_id new))
  | .updCommit c => inferInstanceAs (Decidable (oleLog c st.last_log_id))
  | .purge upto =>
      inferInstanceAs (Decidable (oleLog (some upto) st.purge_upto ∧ upto ∈ st.log_ids.ids))
  | .mcommit _ => isTrue trivial

/-- States reachable from a valid, well-formed initial state by mutating
calls that respect their documented preconditions. -/
inductive Reachable : RaftState → Prop where
  | init (s : RaftState) : s.validate → WfLog s → Reachable s
  | step (s : RaftState) (a : Step) : Reachable s → stepOk s a → Reachable (applyStep s a)

/-! ### Order lemmas -/

theorem LogId.le_refl (a : LogId) : LogId.le a a := Or.inr ⟨rfl, Nat.le_refl _⟩

theorem LogId.le_trans {a b c : LogId} (h1 : LogId.le a b) (h2 : LogId.le b c) :
    LogId.le a c := by
  unfold LogId.le at *; omega

theorem LogId.le_antisymm {a b : LogId} (h1 : LogId.le a b) (h2 : LogId.le b a) :
    a = b := by
  cases a; cases b
  simp only [LogId.mk.injEq]
  unfold LogId.le at *
  simp_all
  omega

theorem LogId.lt_le {a b : LogId} (h : LogId.lt a b) : LogId.le a b := by
  unfold LogId.lt at h; unfold LogId.le; omega

theorem LogId.not_lt_le {a b : LogId} (h : ¬ LogId.lt a b) : LogId.le b a := by
  unfold LogId.lt at h; unfold LogId.le; omega

theorem oleLog_refl (a : Option LogId) : oleLog a a := by
  cases a with
  | none => trivial
  | some x => exact LogId.le_refl x

theorem oleLog_trans {a b c : Option LogId} (h1 : oleLog a b) (h2 : oleLog b c) :
    oleLog a c := by
  cases a with
  | none => trivial
  | some x =>
    cases b with
    | none => exact absurd h1 id
    | some y =>
      cases c with
      | none => exact absurd h2 id
      | some z => exact LogId.le_trans h1 h2

theorem oltLog_ole {a b : Option LogId} (h : oltLog a b) : oleLog a b := by
  cases a with
  | none => trivial
  | some x =>
    cases b with
    | none => exact absurd h id
    | some y => exact LogId.lt_le h

theorem not_oltLog_ole {a b : Option LogId} (h : ¬ oltLog a b) : oleLog b a := by
  cases a with
  | none =>
    cases b with
    | none => trivial
    | some y => exact absurd trivial h
  | some x =>
    cases b with
    | none => trivial
    | some y => exact LogId.not_lt_le h

theorem oleLog_antisymm {a b : Option LogId} (h1 : oleLog a b) (h2 : oleLog b a) :
    a = b := by
  cases a with
  | none =>
    cases b with
    | none => rfl
    | some y => exact absurd h2 id
  | some x =>
    cases b with
    | none => exact absurd h1 id
    | some y => exact congrArg some (LogId.le_antisymm h1 h2)

/-! ### Chain lemmas about contiguous runs of log ids -/

theorem lastOf_append (p : Option LogId) (l new : List LogId) :
    lastOf p (l ++ new) = lastOf (lastOf p l) new := by
  induction l generalizing p with
  | nil => rfl
  | cons x xs ih => simpa [lastOf] using ih (some x)

theorem chainFrom_le_lastOf {p : Option LogId} {l : List LogId}
    (h : chainFrom p l) : oleLog p (lastOf p l) := by
  induction l generalizing p with
  | nil => exact oleLog_refl p
  | cons x xs ih =>
    obtain ⟨-, h2, h3⟩ := h
    exact oleLog_trans h2 (ih h3)

theorem chainFrom_chainIds {p : Option LogId} {l : List LogId}
    (h : chainFrom p l) : chainIds l := by
  cases l with
  | nil => trivial
  | cons x xs => exact h.2.2

theorem chainFrom_append {p : Option LogId} {l new : List LogId}
    (h1 : chainFrom p l) (h2 : chainFrom (lastOf p l) new) :
    chainFrom p (l ++ new) := by
  induction l generalizing p with
  | nil => exact h2
  | cons x xs ih =>
    obtain ⟨g1, g2, g3⟩ := h1
    exact ⟨g1, g2, ih g3 h2⟩

theorem chainIds_append {l new : List LogId}
    (h1 : chainIds l) (h2 : chainFrom (lastOf none l) new) :
    chainIds (l ++ new) := by
  cases l with
  | nil => exact chainFrom_chainIds h2
  | cons x xs => exact chainFrom_append h1 h2

theorem chain_mem_gt {a : LogId} {l : List LogId}
    (h : chainFrom (some a) l) : ∀ y ∈ l, a.index < y.index := by
  induction l generalizing a with
  | nil => intro y hy; cases hy
  | cons x xs ih =>
    intro y hy
    obtain ⟨h1, -, h3⟩ := h
    have hax : a.index < x.index := by
      have : x.index = a.index + 1 := h1
      omega
    rcases List.mem_cons.mp hy with rfl | hmem
    · exact hax
    · exact Nat.lt_trans hax (ih h3 y hmem)

theorem filter_of_all {p : LogId → Bool} :
    ∀ l : List LogId, (∀ a ∈ l, p a = true) → l.filter p = l := by
  intro l h
  induction l with
  | nil => rfl
  | cons x xs ih =>
    rw [List.filter_cons, if_pos (h x (List.mem_cons_self x xs))]
    rw [ih (fun a ha => h a (List.mem_cons_of_mem x ha))]

theorem chain_purge_from {a : LogId} {l : List LogId}
    (h : chainFrom (some a) l) :
    ∀ u ∈ l,
      chainFrom (some u) (l.filter (fun x => decide (u.index < x.index))) ∧
      lastOf (some u) (l.filter (fun x => decide (u.index < x.index))) = lastOf (some a) l := by
  induction l generalizing a with
  | nil => intro u hu; cases hu
  | cons x xs ih =>
    intro u hu
    obtain ⟨h1, -, h3⟩ := h
    rcases List.mem_cons.mp hu with rfl | hmem
    · have hx : decide (u.index < u.index) = false := by simp
      have hall : xs.filter (fun y => decide (u.index < y.index)) = xs :=
        filter_of_all xs (fun y hy => by
          simpa using chain_mem_gt h3 y hy)
      rw [List.filter_cons, if_neg (by simp)]
      rw [hall]
      exact ⟨h3, rfl⟩
    · have hxu : x.index < u.index := chain_mem_gt h3 u hmem
      have hxf : decide (u.index < x.index) = false := by
        simp; omega
      rw [List.filter_cons, if_neg (by simp [hxf])]
      exact ih h3 u hmem

theorem chainIds_purge {l : List LogId}
    (h : chainIds l) :
    ∀ u ∈ l,
      chainFrom (some u) (l.filter (fun x => decide (u.index < x.index))) ∧
      lastOf (some u) (l.filter (fun x => decide (u.index < x.index))) = lastOf none l := by
  cases l with
  | nil => intro u hu; cases hu
  | cons x xs =>
    intro u hu
    rcases List.mem_cons.mp hu with rfl | hmem
    · have hall : xs.filter (fun y => decide (u.index < y.index)) = xs :=
        filter_of_all xs (fun y hy => by
          simpa using chain_mem_gt h y hy)
      rw [List.filter_cons, if_neg (by simp)]
      rw [hall]
      exact ⟨h, rfl⟩
    · have hxu : x.index < u.index := chain_mem_gt h u hmem
      have hxf : decide (u.index < x.index) = false := by
        simp; omega
      rw [List.filter_cons, if_neg (by simp [hxf])]
      exact chain_purge_from h u hmem

/-- Membership commit preserves the membership state's own invariant. -/
theorem mcommit_validate {m : MembershipState} (h : m.validate) (c : Option LogId) :
    (m.commit c).validate := by
  unfold MembershipState.commit
  by_cases hc : oleLog m.effective.log_id c
  · rw [if_pos hc]
    exact oleLog_refl m.effective.log_id
  · rw [if_neg hc]
    exact h

theorem first_ids (st : RaftState) : st.log_ids.first = st.log_ids.ids.head? := rfl

theorem last_ids (st : RaftState) : st.last_log_id = lastOf none st.log_ids.ids := rfl

theorem last_purged_eq (st : RaftState) :
    st.last_purged_log_id = if st.purged_next = 0 then none else st.log_ids.ids.head? := rfl

/-! ### Preservation of `validate` by each guarded mutator -/

theorem preserve_extend (st : RaftState) (new : List LogId)
    (hv : st.validate) (hw : WfLog st) (hg : chainFrom st.last_log_id new) :
    (st.extend_log_ids new).validate ∧ WfLog (st.extend_log_ids new) := by
  obtain ⟨v1, v2, v3, v4, v5, v6, v7, v8⟩ := hv
  have hgl : chainFrom (lastOf none st.log_ids.ids) new := hg
  refine ⟨⟨?_, ?_, ?_, v4, v5, v6, ?_, v8⟩, chainIds_append hw hgl⟩
  · intro hpn
    show oleNat (optIndex ((st.log_ids.ids ++ new).head?)) (some 0)
    cases hids : st.log_ids.ids with
    | nil =>
      cases new with
      | nil => trivial
      | cons x xs =>
        rw [hids] at hgl
        have h0 : x.index = 0 := hgl.1
        show x.index ≤ 0
        omega
    | cons a rest =>
      have h1 := v1 hpn
      rw [first_ids, hids] at h1
      exact h1
  · intro hpn
    show st.purged_next = nextIndex ((st.log_ids.ids ++ new).head?)
    have h2 := v2 hpn
    rw [first_ids] at h2
    cases hids : st.log_ids.ids with
    | nil =>
      rw [hids] at h2
      exact absurd h2 hpn
    | cons a rest =>
      rw [hids] at h2
      exact h2
  · show oleLog (if st.purged_next = 0 then none else (st.log_ids.ids ++ new).head?)
      st.purge_upto
    by_cases hpn : st.purged_next = 0
    · rw [if_pos hpn]; trivial
    · rw [if_neg hpn]
      have h2 := v2 hpn
      rw [first_ids] at h2
      have h3 := v3
      rw [last_purged_eq, if_neg hpn] at h3
      cases hids : st.log_ids.ids with
      | nil =>
        rw [hids] at h2
        exact absurd h2 hpn
      | cons a rest =>
        rw [hids] at h3
        exact h3
  · show oleLog st.committed (lastOf none (st.log_ids.ids ++ new))
    rw [lastOf_append]
    exact oleLog_trans v7 (chainFrom_le_lastOf hgl)

theorem preserve_step (st : RaftState) (a : Step)
    (hv : st.validate) (hw : WfLog st) (hg : stepOk st a) :
    (applyStep st a).validate ∧ WfLog (applyStep st a) := by
  cases a with
  | extend new => exact preserve_extend st new hv hw hg
  | extendSameLeader new => exact preserve_extend st new hv hw hg
  | updCommit c =>
    obtain ⟨v1, v2, v3, v4, v5, v6, v7, v8⟩ := hv
    by_cases hlt : oltLog st.committed c
    · have happ : applyStep st (.updCommit c) =
          { st with
            committed := c
            membership_state := st.membership_state.commit c } := by
        show (st.update_committed c).2 = _
        rw [RaftState.update_committed, if_pos hlt]
      rw [happ]
      refine ⟨⟨v1, v2, v3, ?_, v5, ?_, ?_, ?_⟩, hw⟩
      · intro hs
        exact oleLog_trans (v4 hs) (oltLog_ole hlt)
      · exact oleLog_trans v6 (oltLog_ole hlt)
      · exact hg
      · exact mcommit_validate v8 c
    · have happ : applyStep st (.updCommit c) = st := by
        show (st.update_committed c).2 = _
        rw [RaftState.update_committed, if_neg hlt]
      rw [happ]
      exact ⟨⟨v1, v2, v3, v4, v5, v6, v7, v8⟩, hw⟩
  | purge upto =>
    obtain ⟨v1, v2, v3, v4, v5, v6, v7, v8⟩ := hv
    obtain ⟨hg1, hg2⟩ := hg
    obtain ⟨hcf, hlast⟩ := chainIds_purge hw upto hg2
    refine ⟨⟨?_, ?_, ?_, v4, v5, v6, ?_, v8⟩, hcf⟩
    · intro h
      exact absurd h (Nat.succ_ne_zero upto.index)
    · intro h
      rfl
    · show oleLog (some upto) st.purge_upto
      exact hg1
    · show oleLog st.committed
        (lastOf (some upto) (st.log_ids.ids.filter (fun x => decide (upto.index < x.index))))
      rw [hlast]
      exact v7
  | mcommit c =>
    obtain ⟨v1, v2, v3, v4, v5, v6, v7, v8⟩ := hv
    exact ⟨⟨v1, v2, v3, v4, v5, v6, v7, mcommit_validate v8 c⟩, hw⟩

/-- Every reachable state satisfies `validate` and is well-formed. -/
theorem reachable_validate_wf (s : RaftState) (h : Reachable s) :
    s.validate ∧ WfLog s := by
  induction h with
  | init s hv hw => exact ⟨hv, hw⟩
  | step s a _ hok ih => exact preserve_step s a ih.1 ih.2 hok

/-! ### Sequences of `update_committed` calls -/

/-- Run a sequence of `update_committed` calls, collecting each call's
return value. -/
def runUpdates (st : RaftState) : List (Option LogId) → RaftState × List (Option (Option LogId))
  | [] => (st, [])
  | c :: cs =>
    let r := st.update_committed c
    let rest := runUpdates r.2 cs
    (rest.1, r.1 :: rest.2)

/-- Maximum of two optional log ids under the total order. -/
def omaxLog (a b : Option LogId) : Option LogId :=
  if oleLog a b then b else a

theorem upd_committed_eq (st : RaftState) (c : Option LogId) :
    (st.update_committed c).2.committed = omaxLog st.committed c := by
  unfold RaftState.update_committed omaxLog
  by_cases hlt : oltLog st.committed c
  · rw [if_pos hlt, if_pos (oltLog_ole hlt)]
  · rw [if_neg hlt]
    by_cases hle : oleLog st.committed c
    · rw [if_pos hle]
      exact oleLog_antisymm hle (not_oltLog_ole hlt)
    · rw [if_neg hle]

theorem upd_committed_mono (st : RaftState) (c : Option LogId) :
    oleLog st.committed (st.update_committed c).2.committed := by
  unfold RaftState.update_committed
  by_cases hlt : oltLog st.committed c
  · rw [if_pos hlt]
    exact oltLog_ole hlt
  · rw [if_neg hlt]
    exact oleLog_refl _

theorem upd_prev_eq {st : RaftState} {c p : Option LogId}
    (h : (st.update_committed c).1 = some p) : p = st.committed := by
  unfold RaftState.update_committed at h
  by_cases hlt : oltLog st.committed c
  · rw [if_pos hlt] at h
    exact (Option.some.inj h).symm
  · rw [if_neg hlt] at h
    exact absurd h (by simp)

theorem run_committed_eq (st : RaftState) (cs : List (Option LogId)) :
    (runUpdates st cs).1.committed = cs.foldl omaxLog st.committed := by
  induction cs generalizing st with
  | nil => rfl
  | cons c cs ih =>
    show (runUpdates (st.update_committed c).2 cs).1.committed = _
    rw [ih, upd_committed_eq]
    rfl

theorem run_committed_mono (st : RaftState) (cs : List (Option LogId)) :
    oleLog st.committed (runUpdates st cs).1.committed := by
  induction cs generalizing st with
  | nil => exact oleLog_refl _
  | cons c cs ih =>
    exact oleLog_trans (upd_committed_mono st c) (ih (st.update_committed c).2)

/-! ### Properties of `assignFrom` -/

theorem assignFrom_spec (lid : LogId) (l : List Entry) :
    (assignFrom lid l).length = l.length ∧
    ∀ (j : Nat) (e : Entry), (assignFrom lid l)[j]? = some e →
      e.log_id = ⟨lid.term, lid.index + j⟩ ∧
      ∃ e0, l[j]? = some e0 ∧ e.payload = e0.payload := by
  induction l generalizing lid with
  | nil =>
    refine ⟨rfl, ?_⟩
    intro j e he
    simp [assignFrom] at he
  | cons x rest ih =>
    refine ⟨?_, ?_⟩
    · show (assignFrom ⟨lid.term, lid.index + 1⟩ rest).length + 1 = rest.length + 1
      rw [(ih ⟨lid.term, lid.index + 1⟩).1]
    · intro j e he
      rw [show assignFrom lid (x :: rest) =
          x.set_log_id lid :: assignFrom ⟨lid.term, lid.index + 1⟩ rest from rfl] at he
      cases j with
      | zero =>
        rw [List.getElem?_cons_zero] at he
        obtain rfl := Option.some.inj he
        refine ⟨?_, x, List.getElem?_cons_zero, rfl⟩
        show lid = ⟨lid.term, lid.index + 0⟩
        cases lid
        simp
      | succ k =>
        rw [List.getElem?_cons_succ] at he
        obtain ⟨h1, e0, h2, h3⟩ := (ih ⟨lid.term, lid.index + 1⟩).2 k e he
        refine ⟨?_, e0, ?_, h3⟩
        · rw [h1]
          have hidx : lid.index + 1 + k = lid.index + (k + 1) := by omega
          rw [hidx]
        · rw [List.getElem?_cons_succ]
          exact h2

/-! ### Concrete states used by the closed witness and counterexample
theorems -/

/-- A small concrete valid and well-formed state: a three-node cluster,
this node (id 1) leading with a committed vote, two log entries, nothing
purged and no snapshot. -/
def wstate : RaftState :=
  { vote := ⟨⟨1, some 1, true⟩, some 5⟩
    committed := some ⟨1, 1⟩
    purged_next := 0
    log_ids := ⟨[⟨1, 0⟩, ⟨1, 1⟩]⟩
    membership_state :=
      { committed := ⟨none, [1, 2, 3], [(1, 10), (2, 20), (3, 30)]⟩
        effective := ⟨none, [1, 2, 3], [(1, 10), (2, 20), (3, 30)]⟩ }
    snapshot_meta := ⟨none⟩
    server_state := ServerState.Leader
    purge_upto := none }

/-- The empty freshly-started state: valid and well-formed. -/
def init0 : RaftState :=
  { vote := ⟨⟨0, none, false⟩, none⟩
    committed := none
    purged_next := 0
    log_ids := ⟨[]⟩
    membership_state := { committed := ⟨none, [], []⟩, effective := ⟨none, [], []⟩ }
    snapshot_meta := ⟨none⟩
    server_state := ServerState.Learner
    purge_upto := none }

/-- A degenerate state: a nonzero purge boundary but an empty log-id
index (representable, though it fails `validate`). -/
def badPurged : RaftState :=
  { init0 with purged_next := 1 }

/-! ### Claim theorems -/

/-- Claim C1: `update_committed(candidate)` with a candidate strictly
greater than the current committed log id (absent below present) sets
`committed` to the candidate, commits the membership state at the new
commit point, leaves every other field unchanged, and returns `some` of
the previous committed value; otherwise it returns `none` and the entire
state is unchanged. -/
theorem update_committed_spec (st : RaftState) (c : Option LogId) :
    (oltLog st.committed c →
      (st.update_committed c).1 = some st.committed ∧
      (st.update_committed c).2.committed = c ∧
      (st.update_committed c).2.membership_state = st.membership_state.commit c ∧
      (st.update_committed c).2.vote = st.vote ∧
      (st.update_committed c).2.purged_next = st.purged_next ∧
      (st.update_committed c).2.log_ids = st.log_ids ∧
      (st.update_committed c).2.snapshot_meta = st.snapshot_meta ∧
      (st.update_committed c).2.server_state = st.server_state ∧
      (st.update_committed c).2.purge_upto = st.purge_upto) ∧
    (¬ oltLog st.committed c →
      (st.update_committed c).1 = none ∧ (st.update_committed c).2 = st) := by
  constructor
  · intro h
    unfold RaftState.update_committed
    rw [if_pos h]
    exact ⟨rfl, rfl, rfl, rfl, rfl, rfl, rfl, rfl, rfl⟩
  · intro h
    unfold RaftState.update_committed
    rw [if_neg h]
    exact ⟨rfl, rfl⟩

/-- Witness for C1 at concrete inputs: a greater candidate returns the
previous value, a smaller one leaves the state untouched. -/
theorem update_committed_spec_witness :
    (wstate.update_committed (some ⟨1, 2⟩)).1 = some wstate.committed ∧
    (wstate.update_committed (some ⟨0, 0⟩)).2 = wstate :=
  ⟨((update_committed_spec wstate (some ⟨1, 2⟩)).1 (by decide)).1,
   ((update_committed_spec wstate (some ⟨0, 0⟩)).2 (by decide)).2⟩

/-- Claim C2 counterexample: the claim quantifies over arbitrary call
sequences; from a valid well-formed initial state, a single unguarded
`update_committed` call with a candidate beyond the last log id already
yields a state on which `validate` fails. -/
theorem invariant_closure_cex :
    init0.validate ∧ WfLog init0 ∧
    ¬ (init0.update_committed (some ⟨1, 5⟩)).2.validate :=
  ⟨by decide, by decide, by decide⟩

/-- Claim C2 (amended): every state reachable from a valid well-formed
initial state by mutating calls each of which respects its documented
caller-side precondition (appends contiguous with the tail, commit
candidate not beyond the last log id, purge target a retained log id not
beyond the pending purge watermark) satisfies `validate`. -/
theorem invariant_closure (s : RaftState) (h : Reachable s) : s.validate :=
  (reachable_validate_wf s h).1

/-- Witness for C2: a concrete guarded append followed by a guarded
commit advancement, starting from a concrete valid state, yields a state
that validates. -/
theorem invariant_closure_witness :
    (applyStep (applyStep wstate (Step.extend [⟨1, 2⟩]))
      (Step.updCommit (some ⟨1, 2⟩))).validate :=
  invariant_closure _
    (Reachable.step _ _
      (Reachable.step _ _ (Reachable.init wstate (by decide) (by decide)) (by decide))
      (by decide))

/-- Claim C3: `first_conflicting_index` returns the smallest position
whose entry's log id is not on the local log (every earlier entry is
present, the returned position, when in range, is absent), and returns the
sequence's length when every entry's log id is present. -/
theorem first_conflicting_index_spec (st : RaftState) (entries : List Entry) :
    st.first_conflicting_index entries ≤ entries.length ∧
    (∀ (j : Nat), j < st.first_conflicting_index entries →
      ∃ e : Entry, entries[j]? = some e ∧ st.has_log_id e.get_log_id = true) ∧
    (st.first_conflicting_index entries < entries.length →
      ∃ e : Entry, entries[st.first_conflicting_index entries]? = some e ∧
        st.has_log_id e.get_log_id = false) ∧
    ((∀ e ∈ entries, st.has_log_id e.get_log_id = true) →
      st.first_conflicting_index entries = entries.length) := by
  induction entries with
  | nil =>
    refine ⟨Nat.le_refl 0, ?_, ?_, fun _ => rfl⟩
    · intro j hj
      exact absurd hj (Nat.not_lt_zero j)
    · intro hlt
      exact absurd hlt (Nat.not_lt_zero 0)
  | cons e rest ih =>
    obtain ⟨i1, i2, i3, i4⟩ := ih
    by_cases hcase : st.has_log_id e.get_log_id = true
    · have hfci : st.first_conflicting_index (e :: rest) =
          st.first_conflicting_index rest + 1 := by
        show (if st.has_log_id e.get_log_id = true
          then st.first_conflicting_index rest + 1 else 0) = _
        rw [if_pos hcase]
      rw [hfci]
      refine ⟨by simpa using i1, ?_, ?_, ?_⟩
      · intro j hj
        cases j with
        | zero => exact ⟨e, List.getElem?_cons_zero, hcase⟩
        | succ k =>
          obtain ⟨e', h1, h2⟩ := i2 k (by omega)
          exact ⟨e', by rw [List.getElem?_cons_succ]; exact h1, h2⟩
      · intro hlt
        obtain ⟨e', h1, h2⟩ := i3 (by simpa using hlt)
        exact ⟨e', by rw [List.getElem?_cons_succ]; exact h1, h2⟩
      · intro hall
        have := i4 (fun x hx => hall x (List.mem_cons_of_mem e hx))
        simp [this]
    · have hfci : st.first_conflicting_index (e :: rest) = 0 := by
        show (if st.has_log_id e.get_log_id = true
          then st.first_conflicting_index rest + 1 else 0) = _
        rw [if_neg hcase]
      rw [hfci]
      refine ⟨Nat.zero_le _, ?_, ?_, ?_⟩
      · intro j hj
        exact absurd hj (Nat.not_lt_zero j)
      · intro hlt
        refine ⟨e, List.getElem?_cons_zero, ?_⟩
        cases hb : st.has_log_id e.get_log_id with
        | false => rfl
        | true => exact absurd hb hcase
      · intro hall
        exact absurd (hall e (List.mem_cons_self e rest)) hcase

/-- Witness for C3: on a concrete state and entry list whose first entry
matches local history and whose second does not, the returned position is
in range and holds a conflicting entry. -/
theorem first_conflicting_index_spec_witness :
    ∃ e : Entry,
      ([⟨⟨1, 0⟩, 0⟩, ⟨⟨2, 1⟩, 0⟩] :
        List Entry)[wstate.first_conflicting_index [⟨⟨1, 0⟩, 0⟩, ⟨⟨2, 1⟩, 0⟩]]? = some e ∧
      wstate.has_log_id e.get_log_id = false :=
  (first_conflicting_index_spec wstate [⟨⟨1, 0⟩, 0⟩, ⟨⟨2, 1⟩, 0⟩]).2.2.1 (by decide)

/-- Claim C4: `calc_server_state` is a pure function of the state; a
non-voter is a Learner regardless of the vote, a voter whose committed
vote names it is the Leader, a voter named by a non-committed vote is a
Candidate, and any other voter is a Follower. -/
theorem calc_server_state_spec (st : RaftState) (id : Nat) :
    (st.is_voter id = false → st.calc_server_state id = ServerState.Learner) ∧
    (st.is_voter id = true → st.vote_ref.voted_for = some id →
      st.vote_ref.is_committed = true →
      st.calc_server_state id = ServerState.Leader) ∧
    (st.is_voter id = true → st.vote_ref.voted_for = some id →
      st.vote_ref.is_committed = false →
      st.calc_server_state id = ServerState.Candidate) ∧
    (st.is_voter id = true → st.vote_ref.voted_for ≠ some id →
      st.calc_server_state id = ServerState.Follower) := by
  refine ⟨?_, ?_, ?_, ?_⟩
  · intro h
    simp [RaftState.calc_server_state, h]
  · intro h1 h2 h3
    simp [RaftState.calc_server_state, RaftState.is_leader, RaftState.is_leading, h1, h2, h3]
  · intro h1 h2 h3
    simp [RaftState.calc_server_state, RaftState.is_leader, RaftState.is_leading, h1, h2, h3]
  · intro h1 h2
    simp [RaftState.calc_server_state, RaftState.is_leader, RaftState.is_leading, h1, h2]

/-- Witness for C4: on the concrete leading state, node 1 derives Leader. -/
theorem calc_server_state_spec_witness :
    wstate.calc_server_state 1 = ServerState.Leader :=
  (calc_server_state_spec wstate 1).2.1 (by decide) (by decide) (by decide)

/-- Claim C5 counterexample: in the representable state with a nonzero
purge boundary and an empty log-id index, `last_purged_log_id` is absent
although `purged_next` is not 0, refuting "absent precisely when
purged_next is 0" over every state. -/
theorem purge_boundary_cex :
    badPurged.last_purged_log_id = none ∧ badPurged.purged_next ≠ 0 :=
  ⟨by decide, by decide⟩

/-- Claim C5 (amended): after `purge_log(upto)`, `purged_next` equals
`upto.index + 1` and `last_purged_log_id()` returns exactly `upto`; in
every state `last_purged_log_id()` is absent when `purged_next` is 0 and
otherwise equals the first retained log id (hence it may also be absent
when nothing is retained); in every state satisfying `validate`, absence
is exactly `purged_next = 0`. -/
theorem purge_boundary_spec (st : RaftState) (upto : LogId) :
    (st.purge_log upto).purged_next = upto.index + 1 ∧
    (st.purge_log upto).last_purged_log_id = some upto ∧
    (st.purged_next = 0 → st.last_purged_log_id = none) ∧
    (st.purged_next ≠ 0 → st.last_purged_log_id = st.log_ids.first) ∧
    (st.validate → (st.last_purged_log_id = none ↔ st.purged_next = 0)) := by
  refine ⟨rfl, ?_, ?_, ?_, ?_⟩
  · show (if upto.index + 1 = 0 then none
      else (st.log_ids.purge upto).first) = some upto
    rw [if_neg (Nat.succ_ne_zero upto.index)]
    rfl
  · intro h
    unfold RaftState.last_purged_log_id
    rw [if_pos h]
  · intro h
    unfold RaftState.last_purged_log_id
    rw [if_neg h]
  · intro hv
    obtain ⟨-, v2, -, -, -, -, -, -⟩ := hv
    constructor
    · intro habs
      by_contra hpn
      have h2 := v2 hpn
      rw [last_purged_eq, if_neg hpn] at habs
      rw [first_ids, habs] at h2
      exact hpn h2
    · intro h
      unfold RaftState.last_purged_log_id
      rw [if_pos h]

/-- Witness for C5 at concrete inputs: purging the concrete state up to
log id (1,0) records it as the last purged log id, and on the valid
concrete state absence of a purged id coincides with a zero boundary. -/
theorem purge_boundary_spec_witness :
    (wstate.purge_log ⟨1, 0⟩).last_purged_log_id = some ⟨1, 0⟩ ∧
    (wstate.last_purged_log_id = none ↔ wstate.purged_next = 0) :=
  ⟨(purge_boundary_spec wstate ⟨1, 0⟩).2.1,
   (purge_boundary_spec wstate ⟨1, 0⟩).2.2.2.2 (by decide)⟩

/-- Claim C6 counterexample: on a concrete valid state whose committed
log id is (1,1), the sequence consisting of the single candidate (1,0)
leaves committed at (1,1), not at the maximum (1,0) of all candidates
ever passed, refuting the claim over every starting state. -/
theorem monotone_commit_cex :
    wstate.validate ∧
    (runUpdates wstate [some ⟨1, 0⟩]).1.committed ≠ some (⟨1, 0⟩ : LogId) :=
  ⟨by decide, by decide⟩

/-- Claim C6 (amended): after any finite sequence of `update_committed`
calls, committed equals the maximum — under the total order on optional
log ids — of the initial committed value together with all candidates
ever passed; it never decreases, and it is never below any previously
returned previous-value. -/
theorem monotone_commit_spec (st : RaftState) (cs : List (Option LogId)) :
    (runUpdates st cs).1.committed = cs.foldl omaxLog st.committed ∧
    oleLog st.committed (runUpdates st cs).1.committed ∧
    ∀ r ∈ (runUpdates st cs).2, ∀ p, r = some p →
      oleLog p (runUpdates st cs).1.committed := by
  refine ⟨run_committed_eq st cs, run_committed_mono st cs, ?_⟩
  induction cs generalizing st with
  | nil =>
    intro r hr
    exact absurd hr (List.not_mem_nil r)
  | cons c cs ih =>
    intro r hr p hp
    have hr' : r ∈ (st.update_committed c).1 ::
        (runUpdates (st.update_committed c).2 cs).2 := hr
    show oleLog p (runUpdates (st.update_committed c).2 cs).1.committed
    rcases List.mem_cons.mp hr' with heq | hmem
    · rw [heq] at hp
      rw [upd_prev_eq hp]
      exact oleLog_trans (upd_committed_mono st c) (run_committed_mono _ cs)
    · exact ih (st.update_committed c).2 r hmem p hp

/-- Witness for C6 at a concrete input: the previous value returned by a
successful commit advancement never exceeds the final committed value. -/
theorem monotone_commit_spec_witness :
    oleLog (some (⟨1, 1⟩ : LogId)) (runUpdates wstate [some ⟨1, 2⟩]).1.committed :=
  (monotone_commit_spec wstate [some ⟨1, 2⟩]).2.2
    (some (some ⟨1, 1⟩)) (by decide) (some ⟨1, 1⟩) rfl

/-- Claim C7: `forward_to_leader` is a pure read; with a committed vote
naming a leader present in the effective membership it returns that
leader's id and node metadata, with a committed vote naming a leader
absent from membership it returns the empty result, and with a
non-committed vote it returns the empty result — in every case an
ordinary value, never a failure. -/
theorem forward_to_leader_spec (st : RaftState) :
    (st.vote_ref.is_committed = true →
      ∀ id : Nat, st.vote_ref.voted_for = some id →
        (∀ n : Nat, st.membership_state.effective.get_node id = some n →
          st.forward_to_leader = some (ForwardToLeader.new id n)) ∧
        (st.membership_state.effective.get_node id = none →
          st.forward_to_leader = some ForwardToLeader.empty)) ∧
    (st.vote_ref.is_committed = false →
      st.forward_to_leader = some ForwardToLeader.empty) := by
  constructor
  · intro hc id hid
    constructor
    · intro n hn
      simp [RaftState.forward_to_leader, hc, hid, hn]
    · intro hn
      simp [RaftState.forward_to_leader, hc, hid, hn]
  · intro hc
    simp [RaftState.forward_to_leader, hc]

/-- Witness for C7: on the concrete state, the committed vote for node 1
(present in membership with metadata 10) forwards to (1, 10). -/
theorem forward_to_leader_spec_witness :
    wstate.forward_to_leader = some (ForwardToLeader.new 1 10) :=
  ((forward_to_leader_spec wstate).1 (by decide) 1 (by decide)).1 10 (by decide)

/-- Claim C8: with a vote carrying committed leader id E and last log id
of index i, `assign_log_ids` succeeds and stamps the n entries, in order,
with log ids (E, i+1), ..., (E, i+n), leaving payloads unchanged; the
first assigned index is one past the last log id's index. -/
theorem assign_log_ids_spec (st : RaftState) (entries : List Entry) (E : Nat) (lid : LogId)
    (hE : st.vote_ref.committed_leader_id = some E) (hl : st.last_log_id = some lid) :
    ∃ out : List Entry, st.assign_log_ids entries = some out ∧
      out.length = entries.length ∧
      ∀ (j : Nat) (e : Entry), out[j]? = some e →
        e.log_id = ⟨E, lid.index + 1 + j⟩ ∧
        ∃ e0 : Entry, entries[j]? = some e0 ∧ e.payload = e0.payload := by
  refine ⟨assignFrom ⟨E, nextIndex st.last_log_id⟩ entries, ?_, ?_, ?_⟩
  · unfold RaftState.assign_log_ids
    rw [hE]
  · exact (assignFrom_spec ⟨E, nextIndex st.last_log_id⟩ entries).1
  · intro j e he
    obtain ⟨h1, e0, h2, h3⟩ := (assignFrom_spec ⟨E, nextIndex st.last_log_id⟩ entries).2 j e he
    refine ⟨?_, e0, h2, h3⟩
    rw [h1, hl]
    show (⟨E, lid.index + 1 + j⟩ : LogId) = ⟨E, lid.index + 1 + j⟩
    rfl

/-- Witness for C8: on the concrete leading state (committed leader id 1,
last log id (1,1)), a one-entry batch gets log id (1, 2). -/
theorem assign_log_ids_spec_witness :
    ∃ out : List Entry, wstate.assign_log_ids [⟨⟨0, 0⟩, 7⟩] = some out ∧
      out.length = ([⟨⟨0, 0⟩, 7⟩] : List Entry).length ∧
      ∀ (j : Nat) (e : Entry), out[j]? = some e →
        e.log_id = ⟨1, (⟨1, 1⟩ : LogId).index + 1 + j⟩ ∧
        ∃ e0 : Entry, ([⟨⟨0, 0⟩, 7⟩] : List Entry)[j]? = some e0 ∧
          e.payload = e0.payload :=
  assign_log_ids_spec wstate [⟨⟨0, 0⟩, 7⟩] 1 ⟨1, 1⟩ (by decide) (by decide)

/-- Claim C9: under the invariant that a committed vote always carries a
voted-for node id, the `unwrap` inside `forward_to_leader` never reaches
its failure branch — the function is total on all such states. -/
theorem forward_to_leader_total (st : RaftState)
    (h : st.vote_ref.is_committed = true → st.vote_ref.voted_for ≠ none) :
    (st.forward_to_leader).isSome = true := by
  unfold RaftState.forward_to_leader
  by_cases hc : st.vote_ref.is_committed = true
  · rw [if_pos hc]
    cases hvf : st.vote_ref.voted_for with
    | none => exact absurd hvf (h hc)
    | some id =>
      cases hn : st.membership_state.effective.get_node id <;> simp [hn]
  · rw [if_neg hc]
    rfl

/-- Witness for C9: the concrete committed-vote state satisfies the
invariant, so forwarding yields a value. -/
theorem forward_to_leader_total_witness :
    (wstate.forward_to_leader).isSome = true :=
  forward_to_leader_total wstate (by decide)

/-- Claim C10: `purge_log` modifies only the purge boundary and the
log-id index; the vote, committed, membership state, snapshot metadata,
server state, and the pending purge watermark are left exactly unchanged. -/
theorem purge_log_frame (st : RaftState) (upto : LogId) :
    (st.purge_log upto).vote = st.vote ∧
    (st.purge_log upto).committed = st.committed ∧
    (st.purge_log upto).membership_state = st.membership_state ∧
    (st.purge_log upto).snapshot_meta = st.snapshot_meta ∧
    (st.purge_log upto).server_state = st.server_state ∧
    (st.purge_log upto).purge_upto = st.purge_upto :=
  ⟨rfl, rfl, rfl, rfl, rfl, rfl⟩

end Openraft
